import Mathlib

/-!
Shallow embedding of the kas-santra LSM storage engine (src/src/lib.rs,
src/src/engine/{memtable,operation,wal,sstable}.rs).

Keys and values are byte sequences (Rust `String`, compared by its `Ord`
instance, i.e. lexicographic byte order); we model them as `List Nat`
where every element is a byte value.  The WAL file and SSTable files are
byte sequences as well.  Stateful Rust code becomes explicit state
passing; fallible code returns `Option` or a dedicated outcome type;
Rust panics are a dedicated outcome constructor.  Machine integers are
modelled as `Nat`/`Int` with explicit `% 2^32` where the `as u32` casts
in the source can overflow.
-/

namespace Kassantra

/-- Strict lexicographic byte order: exactly Rust's `Ord` on `&[u8]` /
`String` (element-wise, a strict prefix is smaller). -/
def bytesLt : List Nat → List Nat → Bool
  | [], [] => false
  | [], _ :: _ => true
  | _ :: _, [] => false
  | a :: as, b :: bs => if a < b then true else if b < a then false else bytesLt as bs

/-- Rust enum `Operation` (src/src/engine/operation.rs): `Insert(value)`
carries the value bytes, `Delete` is a tombstone. -/
inductive OpV where
  | insert (v : List Nat)
  | delete
  deriving DecidableEq, Repr

/-- Source `Operation::size_bytes`: value length for `Insert`, 0 for
`Delete`. -/
def OpV.sizeBytes : OpV → Nat
  | .insert v => v.length
  | .delete => 0

/-- The `BTreeMap<String, Operation>` store of the MemTable, modelled as an
association list kept in ascending key order. -/
abbrev Store := List (List Nat × OpV)

/-- `BTreeMap::get`. -/
def storeGet (k : List Nat) : Store → Option OpV
  | [] => none
  | (k', op) :: t => if k = k' then some op else storeGet k t

/-- `BTreeMap::insert`: upsert keeping ascending key order. -/
def storeInsert (k : List Nat) (op : OpV) : Store → Store
  | [] => [(k, op)]
  | (k', op') :: t =>
    if bytesLt k k' then (k, op) :: (k', op') :: t
    else if k = k' then (k, op) :: t
    else (k', op') :: storeInsert k op t

/-- `BTreeMap::remove` (used by `replay_wal` for `DELETE` records). -/
def storeRemove (k : List Nat) : Store → Store
  | [] => []
  | (k', op') :: t => if k = k' then t else (k', op') :: storeRemove k t

/-- Keys of a store, in order. -/
def storeKeys (s : Store) : List (List Nat) := s.map Prod.fst

/-- Ascending strict key order, the `BTreeMap` invariant. -/
def storeSorted (s : Store) : Prop :=
  List.Pairwise (fun a b => bytesLt a b = true) (storeKeys s)

instance (s : Store) : Decidable (storeSorted s) := by
  unfold storeSorted
  infer_instance

/-- Sum over the entries of `len(key) + op.size_bytes()` (as an integer,
to compare with the `i64` accumulator). -/
def storeSizeSum : Store → Int
  | [] => 0
  | (k, op) :: t => (k.length : Int) + (OpV.sizeBytes op : Int) + storeSizeSum t

/-! ## WAL (src/src/engine/wal.rs)

The WAL file is a byte sequence.  `MemTable::set`/`delete` build the
record text `INSERT\t<key>\t<value>\n` resp. `DELETE\t<key>\n` and hand it
to `Wal::append`, which writes the bytes at the end of the file.  (In the
checked-out sources `Wal::append` is typed `&str` and uses `writeln!`
while `memtable.rs` passes the already `\n`-terminated bytes — a version
skew; under either resolution the file ends up holding exactly one
`\n`-terminated line per record, which is what we model.) -/

def TAB : Nat := 9
def NL : Nat := 10

/-- ASCII bytes of `INSERT`. -/
def INSERTTAG : List Nat := [73, 78, 83, 69, 82, 84]
/-- ASCII bytes of `DELETE`. -/
def DELETETAG : List Nat := [68, 69, 76, 69, 84, 69]

/-- Bytes of `format!("INSERT\t{}\t{}\n", key, value)`. -/
def insertLogEntry (k v : List Nat) : List Nat :=
  INSERTTAG ++ TAB :: (k ++ TAB :: (v ++ [NL]))

/-- Bytes of `format!("DELETE\t{}\n", key)`. -/
def deleteLogEntry (k : List Nat) : List Nat :=
  DELETETAG ++ TAB :: (k ++ [NL])

/-- `str::split('\t')`: split a line at every TAB byte. -/
def splitTab : List Nat → List (List Nat)
  | [] => [[]]
  | b :: t =>
    let r := splitTab t
    if b = TAB then [] :: r
    else
      match r with
      | [] => [[b]]
      | h :: t' => (b :: h) :: t'

/-- Raw split of the file at every NL byte. -/
def splitNl : List Nat → List (List Nat)
  | [] => [[]]
  | b :: t =>
    let r := splitNl t
    if b = NL then [] :: r
    else
      match r with
      | [] => [[b]]
      | h :: t' => (b :: h) :: t'

/-- The carriage-return byte. -/
def CR : Nat := 13

/-- The CRLF handling of `BufRead::lines`: after the terminating `\n` is
removed, one trailing `\r` is removed too. -/
def stripCr (l : List Nat) : List Nat :=
  if l.getLast? = some CR then l.dropLast else l

/-- `BufRead::lines` semantics on the whole file: split at `\n`; every
`\n`-terminated line loses one trailing `\r` (CRLF); a final line the
file does not terminate is yielded as-is (and the empty file yields no
line at all). -/
def walLines (w : List Nat) : List (List Nat) :=
  let parts := splitNl w
  match parts.getLast? with
  | some [] => parts.dropLast.map stripCr
  | some lastLine => parts.dropLast.map stripCr ++ [lastLine]
  | none => []

/-! ## MemTable (src/src/engine/memtable.rs) -/

/-- MemTable state: `store`, `flush_threshold_bytes` (1024 from
`MemTable::new`), and the signed `size_bytes` accumulator. -/
structure MemTable where
  store : Store
  sizeBytes : Int
  deriving DecidableEq, Repr

/-- `MemTable::new()`. -/
def MemTable.new : MemTable := { store := [], sizeBytes := 0 }

/-- Constant `flush_threshold_bytes` (the code never changes it). -/
def flushThresholdBytes : Nat := 1024

/-- `MemTable::is_full`: `size_bytes >= flush_threshold_bytes as i64`. -/
def MemTable.isFull (m : MemTable) : Bool :=
  (flushThresholdBytes : Int) ≤ m.sizeBytes

/-- `MemTable::is_empty`. -/
def MemTable.isEmpty (m : MemTable) : Bool := m.store.isEmpty

/-- `MemTable::get`. -/
def MemTable.get (m : MemTable) (k : List Nat) : Option OpV := storeGet k m.store

/-- Successful-WAL path of `MemTable::set`: append the `INSERT` record to
the WAL, then upsert and adjust `size_bytes` by the delta against the
pre-existing entry. -/
def mtSetOk (m : MemTable) (w : List Nat) (k v : List Nat) : MemTable × List Nat :=
  let w' := w ++ insertLogEntry k v
  let existing : Nat :=
    match storeGet k m.store with
    | some (.insert v0) => k.length + v0.length
    | some .delete => k.length
    | none => 0
  let byteDiff : Int := (k.length : Int) + (v.length : Int) - (existing : Int)
  ({ store := storeInsert k (.insert v) m.store, sizeBytes := m.sizeBytes + byteDiff }, w')

/-- Successful-WAL path of `MemTable::delete`: append the `DELETE` record,
then insert a tombstone and adjust `size_bytes`. -/
def mtDeleteOk (m : MemTable) (w : List Nat) (k : List Nat) : MemTable × List Nat :=
  let w' := w ++ deleteLogEntry k
  let existing : Nat :=
    match storeGet k m.store with
    | some (.insert v0) => k.length + v0.length
    | some .delete => k.length
    | none => 0
  let byteDiff : Int := (k.length : Int) - (existing : Int)
  ({ store := storeInsert k .delete m.store, sizeBytes := m.sizeBytes + byteDiff }, w')

/-- Outcome of a Rust call that could in principle return normally,
return an error value, or panic.  `MemTable::set`/`delete` return `()` and
use `.expect(..)` on the WAL append, so on append failure they panic; the
`errReturn` constructor exists only so that the claim "the failure
propagates as a returned error" is expressible.  `panicked` carries the
state as it stood when the panic unwound. -/
inductive Outcome (α : Type) where
  | ok (val : α)
  | errReturn (val : α)
  | panicked (st : α)
  deriving DecidableEq, Repr

/-- `MemTable::set` with the result of the WAL append made explicit:
`appendOk = false` models `Wal::append` returning `Err`, on which the
source panics via `.expect("Failed to write to WAL")` before touching the
store or the accumulator. -/
def MemTable.setO (m : MemTable) (w : List Nat) (k v : List Nat) (appendOk : Bool) :
    Outcome (MemTable × List Nat) :=
  if appendOk then .ok (mtSetOk m w k v) else .panicked (m, w)

/-- `MemTable::delete` with the WAL append result made explicit. -/
def MemTable.deleteO (m : MemTable) (w : List Nat) (k : List Nat) (appendOk : Bool) :
    Outcome (MemTable × List Nat) :=
  if appendOk then .ok (mtDeleteOk m w k) else .panicked (m, w)

/-- `MemTable::clear`: clear the map, zero the accumulator, truncate the
WAL. -/
def mtClear (_m : MemTable) (_w : List Nat) : MemTable × List Nat :=
  ({ store := [], sizeBytes := 0 }, [])

/-- One parsed WAL line applied as `replay_wal` applies it: `INSERT k v`
inserts, `DELETE k` removes the key; `size_bytes` is not touched by the
source.  `none` models the `unwrap`/`panic!` on a malformed or
unknown-tag line. -/
def replayLine (m : MemTable) (line : List Nat) : Option MemTable :=
  match splitTab line with
  | tag :: rest =>
    if tag = INSERTTAG then
      match rest with
      | k :: v :: _ => some { m with store := storeInsert k (.insert v) m.store }
      | _ => none
    else if tag = DELETETAG then
      match rest with
      | k :: _ => some { m with store := storeRemove k m.store }
      | _ => none
    else none
  | [] => none

/-- `MemTable::replay_wal`: fold `replayLine` over the WAL's lines. -/
def MemTable.replayWal (m : MemTable) (w : List Nat) : Option MemTable :=
  (walLines w).foldlM replayLine m

/-! ## SSTable on-disk format (src/src/engine/sstable.rs)

An SSTable file is a byte sequence of back-to-back records
`u32le(key_len) | u32le(value_len) | key | value`, where a `Delete` is
stored with the literal value bytes `TOMBSTONE`. -/

/-- ASCII bytes of the 9-byte literal `TOMBSTONE`. -/
def TOMBSTONE : List Nat := [84, 79, 77, 66, 83, 84, 79, 78, 69]

/-- Little-endian 4-byte encoding of `n as u32` (the cast truncates
mod 2^32, which the byte decomposition does on its own). -/
def u32le (n : Nat) : List Nat :=
  [n % 256, n / 256 % 256, n / 65536 % 256, n / 16777216 % 256]

/-- `u32::from_le_bytes`. -/
def fromLE4 (b0 b1 b2 b3 : Nat) : Nat :=
  b0 + 256 * b1 + 65536 * b2 + 16777216 * b3

/-- Value bytes the source writes for an operation (`SSTable::write`):
the value itself for `Insert`, the `TOMBSTONE` literal for `Delete`. -/
def valBytes : OpV → List Nat
  | .insert v => v
  | .delete => TOMBSTONE

/-- Bytes `SSTable::write(key, operation)` appends to the file. -/
def recEnc (k : List Nat) (op : OpV) : List Nat :=
  u32le k.length ++ u32le (valBytes op).length ++ k ++ valBytes op

/-- Byte count `SSTable::write` reports:
`8 + key.len() as u32 as usize + value_len as u32 as usize` (the `as u32`
casts wrap mod 2^32; the bytes actually written are the full key and
value). -/
def recEncReported (k : List Nat) (op : OpV) : Nat :=
  8 + k.length % 4294967296 + (valBytes op).length % 4294967296

/-- Decoding a stored value: a value equal to `TOMBSTONE` reads back as
`Delete`, anything else as `Insert` (shared by `find_key`,
`get_as_operations` and `SSTableIterator::next`). -/
def decodeVal (v : List Nat) : OpV :=
  if v = TOMBSTONE then .delete else .insert v

/-- Result of reading one record at the front of the remaining bytes. -/
inductive RecRead where
  /-- A complete record: key, decoded operation, bytes consumed. -/
  | record (k : List Nat) (op : OpV) (consumed : Nat)
  /-- Fewer than 8 bytes remain: the length reads fail with
  `UnexpectedEof` and the read loops stop (clean EOF when 0 remain). -/
  | stop
  /-- The length fields promise more key/value bytes than remain: the
  payload `read_exact` fails (`?`-propagated error, or panic in
  `SSTableIterator::next`). -/
  | errShort
  deriving DecidableEq, Repr

/-- Tail-recursive test for `n ≤ l.length` (`read_exact` of `n` bytes
succeeds); equivalent to the length comparison but reduces iteratively
in the kernel on long files. -/
def hasLen : List α → Nat → Bool
  | _, 0 => true
  | [], _ + 1 => false
  | _ :: t, n + 1 => hasLen t n

/-- Read one record at the front of `l` (the file contents from the
current offset on). -/
def readRec (l : List Nat) : RecRead :=
  match l with
  | b0 :: b1 :: b2 :: b3 :: c0 :: c1 :: c2 :: c3 :: rest =>
    let kl := fromLE4 b0 b1 b2 b3
    let vl := fromLE4 c0 c1 c2 c3
    if hasLen rest kl then
      let k := rest.take kl
      let rest2 := rest.drop kl
      if hasLen rest2 vl then .record k (decodeVal (rest2.take vl)) (8 + kl + vl)
      else .errShort
    else .errShort
  | _ => .stop

/-- Sequential decoding of all records from `off` on (the loop shared by
`get_as_operations` and `SSTableIterator`); `none` models the
short-payload I/O failure (error return resp. panic).  `fuel` bounds the
loop; every record consumes at least 8 bytes, so `file.length` steps
always suffice. -/
def decodeFrom (file : List Nat) : Nat → Nat → Option (List (List Nat × OpV))
  | 0, _ => some []
  | fuel + 1, off =>
    match readRec (file.drop off) with
    | .stop => some []
    | .errShort => none
    | .record k op consumed =>
      match decodeFrom file fuel (off + consumed) with
      | none => none
      | some t => some ((k, op) :: t)

/-- Tail-recursive list length (used for the fuel bounds of the loop
models, where the plain `List.length` would recurse too deeply for the
kernel on multi-kilobyte files). -/
def lenTR (acc : Nat) : List α → Nat
  | [] => acc
  | _ :: t => lenTR (acc + 1) t

/-- `SSTable::get_as_operations` (= `read_all` of the async variant):
decode every record from offset 0. -/
def readAllOps (file : List Nat) : Option (List (List Nat × OpV)) :=
  decodeFrom file (lenTR 1 file) 0

/-- Modelled from the spec: `SSTable::batch_write(pairs)` is absent from
the checked-out sources (only its callers in `lib.rs` remain); §4.3 says
it writes all pairs in input order and returns the starting byte offsets
aligned with the input.  Returns the bytes appended and those offsets
(the file is fresh at offset 0 in both call sites). -/
def batchWrite : List (List Nat × OpV) → List Nat × List Nat
  | [] => ([], [])
  | (k, op) :: t =>
    let enc := recEnc k op
    let (bytes, offs) := batchWrite t
    (enc ++ bytes, 0 :: offs.map (fun o => o + enc.length))

/-- Modelled from the spec: `SSTable::batch_read(n, offset)` is absent
from the checked-out sources; §4.3 says it reads up to `n` consecutive
records starting at `offset` and returns the records and the next
offset.  It stops early at end of file. -/
def batchRead (file : List Nat) : Nat → Nat → List (List Nat × OpV) × Nat
  | 0, off => ([], off)
  | n + 1, off =>
    match readRec (file.drop off) with
    | .record k op consumed =>
      let (recs, off') := batchRead file n (off + consumed)
      ((k, op) :: recs, off')
    | _ => ([], off)

/-- Byte length of the records `batch_write` emits for `pairs` (the
file length after writing; kept alongside the file as loop-bound
metadata, computed arithmetically so the kernel need not traverse
multi-kilobyte files to bound the scan loops). -/
def recsLen : List (List Nat × OpV) → Nat
  | [] => 0
  | (k, op) :: t => 8 + k.length + (valBytes op).length + recsLen t

/-- In-memory SSTable handle: file bytes plus the sparse index
(`BTreeMap<String, u64>`, modelled as an association list in ascending
key order; `write_to_index` upserts like `storeInsert`).  `len` is the
byte length of `file` (metadata used only to bound the fuel of the scan
loops, which the source bounds by end-of-file). -/
structure SST where
  file : List Nat
  len : Nat
  index : List (List Nat × Nat)
  deriving DecidableEq, Repr

/-- `index_every_n_entries` (always 10 in the source). -/
def indexEveryN : Nat := 10

/-- `BTreeMap<String, u64>::insert` for the sparse index: upsert keeping
ascending key order (same shape as `storeInsert`). -/
def idxInsert (k : List Nat) (o : Nat) : List (List Nat × Nat) → List (List Nat × Nat)
  | [] => [(k, o)]
  | (k', o') :: t =>
    if bytesLt k k' then (k, o) :: (k', o') :: t
    else if k = k' then (k, o) :: t
    else (k', o') :: idxInsert k o t

/-- `BTreeMap<String, u64>::get`-style lookup in the sparse index. -/
def idxGet (k : List Nat) : List (List Nat × Nat) → Nat
  | [] => 0
  | (k', o') :: t => if k = k' then o' else idxGet k t

/-- Sparse index entries taken at positions `i % 10 == 0` of the written
pairs, exactly as the loops in `flush_memtable_to_sstable` and
`compact_sstables` build them (`write_to_index` into a `BTreeMap`). -/
def strideIndex (pairs : List (List Nat × OpV)) (offs : List Nat) :
    List (List Nat × Nat) :=
  ((pairs.zip offs).enum.filter (fun e => e.1 % indexEveryN = 0)).foldl
    (fun acc e => idxInsert e.2.1.1 e.2.2 acc) []

/-- Result of `SSTable::find_key`. -/
inductive FindRes where
  | found (op : OpV)
  | notFound
  | ioErr
  /-- The sparse index is empty: `keys.len() - 1` underflows (debug
  panic; in release the huge `end` makes `keys[middle]` index out of
  bounds), so the call panics either way. -/
  | panic
  deriving DecidableEq, Repr

/-- The `find_key` binary-search loop over the sparse-index keys.  The
loop keeps `middle = (start + end) / 2` at the top of every iteration, so
it is equivalently: recompute `middle`, exit with it when
`end - start <= 1` or on an exact hit, otherwise shrink the interval.
`keys[middle] > target` in the source is `target < keys[middle]` here.
`fuel` bounds the loop; the gap shrinks every iteration, so
`keys.length` steps always suffice. -/
def bsLoop (keys : List (List Nat)) (target : List Nat) :
    Nat → Nat → Nat → Nat
  | 0, s, e => (s + e) / 2
  | fuel + 1, s, e =>
    let m := (s + e) / 2
    if e - s ≤ 1 then m
    else
      let km := keys.getD m []
      if km = target then m
      else if bytesLt target km then bsLoop keys target fuel s m
      else bsLoop keys target fuel m e

/-- The forward scan of `find_key`: read records from `off` until the
key matches (there is no early exit on keys greater than the target; the
loop runs to end of file and returns `None`). -/
def findKeyScan (file : List Nat) (target : List Nat) :
    Nat → Nat → FindRes
  | 0, _ => .notFound
  | fuel + 1, off =>
    match readRec (file.drop off) with
    | .stop => .notFound
    | .errShort => .ioErr
    | .record k op consumed =>
      if k = target then .found op
      else findKeyScan file target fuel (off + consumed)

/-- `SSTable::find_key(target)`: binary-search the sparse index for the
closest key, seek to its offset, scan forward.  With an empty index the
source underflows/overflows and panics. -/
def SST.findKey (t : SST) (target : List Nat) : FindRes :=
  let keys := t.index.map Prod.fst
  if keys.length = 0 then .panic
  else
    let m := bsLoop keys target keys.length 0 (keys.length - 1)
    let closest := keys.getD m []
    let off := idxGet closest t.index
    findKeyScan t.file target (t.len + 1) off

/-- `SSTable::from_file` loads the sparse index via `load_index`, which
is a no-op `Ok(())`: the opened table always has an empty index. -/
def sstFromFile (file : List Nat) : SST :=
  { file := file, len := lenTR 0 file, index := [] }

/-! ## Engine (Database, src/src/lib.rs) -/

/-- Engine state: one WAL, one MemTable, the ordered SSTable list
(index 0 oldest).  Paths, uuids and the data directory carry no
behaviour and are omitted. -/
structure Engine where
  mem : MemTable
  wal : List Nat
  ssts : List SST
  deriving DecidableEq, Repr

/-- `Database::new`: empty MemTable, empty WAL, no SSTables. -/
def Engine.new : Engine := { mem := MemTable.new, wal := [], ssts := [] }

/-- `sstable_compaction_threshold` (always 10 in the source). -/
def compactionThreshold : Nat := 10

/-- `Database::flush_memtable_to_sstable`: batch-write the MemTable's
ascending iteration into a fresh SSTable, index every 10th entry, append
the table to the list, then clear the MemTable and truncate the WAL. -/
def dbFlush (e : Engine) : Engine :=
  let pairs := e.mem.store
  let fo := batchWrite pairs
  let table : SST := { file := fo.1, len := recsLen pairs, index := strideIndex pairs fo.2 }
  let mw := mtClear e.mem e.wal
  { mem := mw.1, wal := mw.2, ssts := e.ssts ++ [table] }

/-- A `CompactionPriorityQueueItem`. -/
structure PQItem where
  key : List Nat
  idx : Nat
  op : OpV
  deriving DecidableEq, Repr

/-- Pop order of the compaction priority queue (`Ord` on
`CompactionPriorityQueueItem`, popped max-first): `a` pops before `b`
iff `a.key < b.key`, or the keys tie and `a.idx > b.idx` (newer run
first). -/
def itemBefore (a b : PQItem) : Bool :=
  bytesLt a.key b.key || (a.key = b.key && decide (b.idx < a.idx))

/-- Push into the queue, kept sorted in pop order (all pushed items have
distinct `(key, idx)` pairs, so the order is strict). -/
def pqPush (x : PQItem) : List PQItem → List PQItem
  | [] => [x]
  | h :: t => if itemBefore x h then x :: h :: t else h :: pqPush x t

/-- `HashSet::insert` on the index set (order of the list is never
observed; only membership, removal and emptiness are). -/
def setAdd (i : Nat) (l : List Nat) : List Nat :=
  if i ∈ l then l else l ++ [i]

/-- Mutable state of the `compact_sstables` merge loop. -/
structure CompState where
  pq : List PQItem
  current : List Nat
  readIdx : List Nat
  opsInQ : List Nat
  finalOps : List (List Nat × OpV)
  deriving Repr

/-- One step of the queue-empty refill pass
(`for (i, table) in sstables.iter_mut().enumerate()`), skipping tables
not in `current_sstables`. -/
def refillStep (files : List (List Nat)) (st : CompState) (i : Nat) : CompState :=
  if i ∈ st.current then
    let ro := batchRead (files.getD i []) 10 (st.readIdx.getD i 0)
    if ro.1.length = 0 then { st with current := st.current.filter (· ≠ i) }
    else
      { st with
        opsInQ := st.opsInQ.set i (st.opsInQ.getD i 0 + ro.1.length)
        pq := ro.1.foldl (fun q kv => pqPush { key := kv.1, idx := i, op := kv.2 } q) st.pq
        readIdx := st.readIdx.set i ro.2
        current := setAdd i st.current }
  else st

/-- The duplicate-drain loop: pop queue entries whose key equals the
winner's key, decrementing that table's outstanding count (the source
never refills here — see the theorems on C1/C2). -/
def drainDups (key : List Nat) : List PQItem → List Nat → List PQItem × List Nat
  | [], counts => ([], counts)
  | h :: t, counts =>
    if h.key = key then drainDups key t (counts.set h.idx (counts.getD h.idx 0 - 1))
    else (h :: t, counts)

/-- The `while current_sstables.len() > 0` merge loop of
`compact_sstables`, fuel-bounded (every iteration emits a record or
terminates, so `total records + 2` steps suffice; callers pass more). -/
def compactLoop (files : List (List Nat)) : Nat → CompState → CompState
  | 0, st => st
  | fuel + 1, st =>
    if st.current.isEmpty then st
    else
      let st1 := if st.pq.isEmpty then (List.range files.length).foldl (refillStep files) st else st
      match st1.pq with
      | [] => st1
      | item :: rest =>
        let dr := drainDups item.key rest st1.opsInQ
        let counts3 := dr.2.set item.idx (dr.2.getD item.idx 0 - 1)
        let st2 := { st1 with
          pq := dr.1
          opsInQ := counts3
          finalOps := st1.finalOps ++ [(item.key, item.op)] }
        if counts3.getD item.idx 0 = 0 then
          let ro := batchRead (files.getD item.idx []) 10 (st2.readIdx.getD item.idx 0)
          if ro.1.length = 0 then
            compactLoop files fuel { st2 with current := st2.current.filter (· ≠ item.idx) }
          else
            compactLoop files fuel
              { st2 with
                opsInQ := st2.opsInQ.set item.idx (st2.opsInQ.getD item.idx 0 + ro.1.length)
                pq := ro.1.foldl
                  (fun q kv => pqPush { key := kv.1, idx := item.idx, op := kv.2 } q) st2.pq
                readIdx := st2.readIdx.set item.idx ro.2
                current := setAdd item.idx st2.current }
        else compactLoop files fuel st2

/-- `Database::compact_sstables`: run the merge loop over the current
tables, batch-write the merged records into one new SSTable with stride
index, and replace the list with it. -/
def dbCompact (e : Engine) : Engine :=
  let files := e.ssts.map SST.file
  let n := e.ssts.length
  let st0 : CompState :=
    { pq := [], current := List.range n, readIdx := List.replicate n 0
      opsInQ := List.replicate n 0, finalOps := [] }
  let st := compactLoop files ((e.ssts.map SST.len).sum + n + 2) st0
  let fo := batchWrite st.finalOps
  let table : SST :=
    { file := fo.1, len := recsLen st.finalOps, index := strideIndex st.finalOps fo.2 }
  { e with ssts := [table] }

/-- Result of `Database::get` (the source panics on an SSTable read
error, and `find_key` itself panics on an empty index). -/
inductive GetRes where
  | found (v : List Nat)
  | notFound
  | panicked
  deriving DecidableEq, Repr

/-- The SSTable scan of `Database::get`, newest to oldest, first
definitive result wins. -/
def getScan (k : List Nat) : List SST → GetRes
  | [] => .notFound
  | t :: rest =>
    match t.findKey k with
    | .found (.insert v) => .found v
    | .found .delete => .notFound
    | .notFound => getScan k rest
    | .ioErr => .panicked
    | .panic => .panicked

/-- `Database::get`: MemTable first, then the SSTables newest to
oldest. -/
def dbGet (e : Engine) (k : List Nat) : GetRes :=
  match e.mem.get k with
  | some (.insert v) => .found v
  | some .delete => .notFound
  | none => getScan k e.ssts.reverse

/-- `Database::set` (successful-WAL path): MemTable.set, then flush when
full, then compact when the list reaches the threshold. -/
def dbSet (e : Engine) (k v : List Nat) : Engine :=
  let mw := mtSetOk e.mem e.wal k v
  let e1 : Engine := { e with mem := mw.1, wal := mw.2 }
  if mw.1.isFull then
    let e2 := dbFlush e1
    if compactionThreshold ≤ e2.ssts.length then dbCompact e2 else e2
  else e1

/-- `Database::delete` (successful-WAL path): same post-conditions as
`set`. -/
def dbDelete (e : Engine) (k : List Nat) : Engine :=
  let mw := mtDeleteOk e.mem e.wal k
  let e1 : Engine := { e with mem := mw.1, wal := mw.2 }
  if mw.1.isFull then
    let e2 := dbFlush e1
    if compactionThreshold ≤ e2.ssts.length then dbCompact e2 else e2
  else e1

/-- External mutation requests (the set/delete alphabet of the claims). -/
inductive DbOp where
  | set (k v : List Nat)
  | del (k : List Nat)
  deriving DecidableEq, Repr

/-- Apply a request sequence to an engine. -/
def applyDb (e : Engine) (ops : List DbOp) : Engine :=
  ops.foldl (fun e op => match op with
    | .set k v => dbSet e k v
    | .del k => dbDelete e k) e

/-- The last operation recorded for a key in a request sequence
(specification side: `Insert`→value, `Delete`→tombstone). -/
def lastOpFor (k : List Nat) (ops : List DbOp) : Option OpV :=
  ops.foldl (fun acc op => match op with
    | .set k' v => if k' = k then some (.insert v) else acc
    | .del k' => if k' = k then some .delete else acc) none

/-! ## Derived forms used by the claim statements -/

/-- Apply set/delete requests at the MemTable+WAL level (no flushing),
i.e. `MemTable::set`/`MemTable::delete` with their WAL appends
succeeding. -/
def applyMem (mw : MemTable × List Nat) (ops : List DbOp) : MemTable × List Nat :=
  ops.foldl (fun mw op => match op with
    | .set k v => mtSetOk mw.1 mw.2 k v
    | .del k => mtDeleteOk mw.1 mw.2 k) mw

/-- The WAL record a request appends. -/
def recordOf : DbOp → List Nat
  | .set k v => insertLogEntry k v
  | .del k => deleteLogEntry k

/-- The WAL line of a request (its record without the terminating
newline). -/
def lineOf : DbOp → List Nat
  | .set k v => INSERTTAG ++ TAB :: (k ++ TAB :: v)
  | .del k => DELETETAG ++ TAB :: k

/-- No TAB or NL byte in the keys and values of a request (the scope
§4.1 of the spec assumes for WAL records). -/
def opTabNlFree : DbOp → Prop
  | .set k v => TAB ∉ k ∧ NL ∉ k ∧ TAB ∉ v ∧ NL ∉ v
  | .del k => TAB ∉ k ∧ NL ∉ k

instance (op : DbOp) : Decidable (opTabNlFree op) := by
  cases op <;> simp only [opTabNlFree] <;> infer_instance

/-- The WAL line of the request does not end in a CR byte: no Insert
value and no Delete key ends in `\r` (otherwise `lines()` strips it on
replay). -/
def opNoCrEnd : DbOp → Prop
  | .set _ v => v.getLast? ≠ some CR
  | .del k => k.getLast? ≠ some CR

instance (op : DbOp) : Decidable (opNoCrEnd op) := by
  cases op <;> simp only [opNoCrEnd] <;> infer_instance

/-- Erase the tombstone entries of a store (what `replay_wal` leaves of
them, keys removed instead of mapped to `Delete`). -/
def dropDeletes : Store → Store
  | [] => []
  | (_, .delete) :: t => dropDeletes t
  | (k, .insert v) :: t => (k, .insert v) :: dropDeletes t

/-- MemTable operation alphabet of claim C4: `set`, `delete`, `clear`. -/
inductive MtOp where
  | set (k v : List Nat)
  | del (k : List Nat)
  | clear
  deriving DecidableEq, Repr

/-- Apply one C4 operation to a MemTable and its WAL. -/
def applyMt (mw : MemTable × List Nat) : MtOp → MemTable × List Nat
  | .set k v => mtSetOk mw.1 mw.2 k v
  | .del k => mtDeleteOk mw.1 mw.2 k
  | .clear => mtClear mw.1 mw.2

/-- Run a C4 operation sequence from a fresh MemTable and empty WAL. -/
def runMt (ops : List MtOp) : MemTable × List Nat :=
  ops.foldl applyMt (MemTable.new, [])

/-- Fold `MemTable::delete` over a key list from a fresh MemTable
(claim C10). -/
def runDeletes (ks : List (List Nat)) : MemTable × List Nat :=
  ks.foldl (fun mw k => mtDeleteOk mw.1 mw.2 k) (MemTable.new, [])

/-! ## Concrete inputs for the counterexample evaluations (C1, C2, C6)

C2: two SSTables flushed from eleven small inserts each.  Each table's
first ten keys `c0..c9` coincide, so the newer table's batch drains the
older's queued copies during compaction; the older table's eleventh
record `d` is still unread when its queued count reaches zero by
draining, and the loop never refills a table in that situation, so `d`
is emitted only after the newer table's `e` — out of key order. -/

/-- Key `c<i>` (two bytes). -/
def c2cK (i : Nat) : List Nat := [99, 48 + i]

/-- Requests of the older C2 table: `c0..c9` then `d`, 1-byte values. -/
def c2Ops0 : List DbOp :=
  ((List.range 10).map (fun i => DbOp.set (c2cK i) [97])) ++ [.set [100] [97]]

/-- Requests of the newer C2 table: `c0..c9` then `e`, 1-byte values. -/
def c2Ops1 : List DbOp :=
  ((List.range 10).map (fun i => DbOp.set (c2cK i) [98])) ++ [.set [101] [98]]

/-- Engine after the two manual flushes and `compact_sstables`. -/
def c2End : Engine :=
  dbCompact (dbFlush (applyDb (dbFlush (applyDb Engine.new c2Ops0)) c2Ops1))

/-- Records of the compacted C2 table (c0..c9 from the newer run, then
`e`, then `d` — the last two out of ascending order). -/
def c2Records : List (List Nat × OpV) :=
  ((List.range 10).map (fun i => (c2cK i, OpV.insert [98]))) ++
    [([101], .insert [98]), ([100], .insert [97])]

/-!
C1: a 49-request trace on a fresh engine whose ten engine-prescribed
flushes trigger compaction, where the compaction defect above makes the
merged file hold the epoch-0 record for key `b` before the epoch-1 one;
the sparse index then steers `find_key` to the older record, so `get`
returns the overwritten value.

Epoch 0 (entries of 110 bytes, full at the 10th set): keys `a05x`,
`b` (value `c1VOld`), `c1..c8`.  Epoch 1 (entries of 100 bytes, full at
the 11th): `a01..a10`, `b` (value `c1VNew`).  Epoch 2 (entries of 50
bytes, full at the 21st): `a01..a10`, `z01..z11`.  Then seven 1024-byte
singleton epochs `w1..w7`; the tenth flush reaches the compaction
threshold. -/

/-- Key `a05x`. -/
def c1A05x : List Nat := [97, 48, 53, 120]
/-- Key `b`. -/
def c1BK : List Nat := [98]
/-- Key `c<i>`. -/
def c1CK (i : Nat) : List Nat := [99, 48 + i]
/-- Key `a01`..`a10`. -/
def c1AK (i : Nat) : List Nat := [97, 48 + (i + 1) / 10, 48 + (i + 1) % 10]
/-- Key `z01`..`z11`. -/
def c1ZK (i : Nat) : List Nat := [122, 48 + (i + 1) / 10, 48 + (i + 1) % 10]
/-- Key `w<i>`. -/
def c1WK (i : Nat) : List Nat := [119, 48 + i]

/-- The value the epoch-0 `set` gives key `b`. -/
def c1VOld : List Nat := List.replicate 109 111
/-- The value the epoch-1 `set` overwrites it with. -/
def c1VNew : List Nat := List.replicate 99 110

/-- The full C1 request trace. -/
def c1Trace : List DbOp :=
  ([.set c1A05x (List.replicate 106 48), .set c1BK c1VOld] ++
    ((List.range 8).map (fun i => DbOp.set (c1CK (i + 1)) (List.replicate 108 49)))) ++
  (((List.range 10).map (fun i => DbOp.set (c1AK i) (List.replicate 97 50))) ++
    [.set c1BK c1VNew]) ++
  (((List.range 10).map (fun i => DbOp.set (c1AK i) (List.replicate 47 51))) ++
    ((List.range 11).map (fun i => DbOp.set (c1ZK i) (List.replicate 47 52)))) ++
  ((List.range 7).map (fun i => DbOp.set (c1WK (i + 1)) (List.replicate 1022 53)))

/-- Engine state after the C1 trace (one compacted SSTable, empty
MemTable). -/
def c1End : Engine := applyDb Engine.new c1Trace

/-- A well-formed one-record SSTable file for key `a`, value `x` (C6). -/
def c6File : List Nat := recEnc [97] (.insert [120])

/-- MemTable well-formedness: sorted store and accurate accumulator
(the C4 invariant). -/
def mtInv (m : MemTable) : Prop :=
  storeSorted m.store ∧ m.sizeBytes = storeSizeSum m.store

/-- The MemTable a replay of one `INSERT a→b` record produces: the entry
is present but `size_bytes` is still 0 (C4 counterexample). -/
def c4M : MemTable := { store := [([97], .insert [98])], sizeBytes := 0 }

/-- 128 distinct 8-byte keys (total length 1024), deletes of which fill
a fresh MemTable (C10 witness). -/
def c10Keys : List (List Nat) :=
  (List.range 128).map (fun i => [105, i, 0, 0, 0, 0, 0, 0])

/-- An engine one byte below the flush threshold (C10 witness): deleting
an absent 1-byte key makes the MemTable full. -/
def c10E : Engine :=
  { mem := { store := [([106], .insert (List.replicate 1022 55))], sizeBytes := 1023 }
    wal := [], ssts := [] }

/-- Concatenated WAL records of a request sequence (what the WAL file
holds after recording it). -/
def walRecords (ops : List DbOp) : List Nat :=
  ops.foldr (fun op acc => recordOf op ++ acc) []

/-- What `replay_wal` does with one parsed request: insert for `INSERT`,
remove for `DELETE` (store only; `size_bytes` untouched). -/
def applyReplay (m : MemTable) : DbOp → MemTable
  | .set k v => { m with store := storeInsert k (.insert v) m.store }
  | .del k => { m with store := storeRemove k m.store }

/-- The C3 witness request sequence. -/
def c3Ops : List DbOp := [.set [97] [120], .del [97], .set [98] [121]]

/-- A small engine whose MemTable holds two entries (C7 witness). -/
def c7E : Engine := applyDb Engine.new [.set [98] [120], .set [97] [121]]

/-! ## Order lemmas for the byte order -/

theorem not_true_eq_false {b : Bool} (h : ¬ b = true) : b = false := by
  cases b
  · rfl
  · exact absurd rfl h

theorem bytesLt_irrefl (a : List Nat) : bytesLt a a = false := by
  induction a with
  | nil => rfl
  | cons x t ih => simp [bytesLt, ih]

theorem bytesLt_trans {a b c : List Nat} (h1 : bytesLt a b = true)
    (h2 : bytesLt b c = true) : bytesLt a c = true := by
  induction a generalizing b c with
  | nil =>
    cases b with
    | nil => exact absurd h1 (by simp [bytesLt])
    | cons y u =>
      cases c with
      | nil => exact absurd h2 (by simp [bytesLt])
      | cons z v => simp [bytesLt]
  | cons x t ih =>
    cases b with
    | nil => exact absurd h1 (by simp [bytesLt])
    | cons y u =>
      cases c with
      | nil => exact absurd h2 (by simp [bytesLt])
      | cons z v =>
        simp only [bytesLt] at h1 h2 ⊢
        rcases Nat.lt_trichotomy x y with hxy | hxy | hxy
        · rcases Nat.lt_trichotomy y z with hyz | hyz | hyz
          · simp [Nat.lt_trans hxy hyz]
          · subst hyz
            simp [hxy]
          · simp [Nat.lt_asymm hyz, hyz] at h2
        · subst hxy
          simp only [Nat.lt_irrefl, if_neg, if_false] at h1
          rcases Nat.lt_trichotomy x z with hyz | hyz | hyz
          · simp [hyz]
          · subst hyz
            simp only [Nat.lt_irrefl, if_neg, if_false] at h2 ⊢
            exact ih h1 h2
          · simp [Nat.lt_asymm hyz, hyz] at h2
        · simp [Nat.lt_asymm hxy, hxy] at h1

theorem bytesLt_ne {a b : List Nat} (h : bytesLt a b = true) : a ≠ b := by
  intro he
  subst he
  rw [bytesLt_irrefl] at h
  exact Bool.false_ne_true h

theorem bytesLt_total {a b : List Nat} (h1 : bytesLt a b = false)
    (h2 : bytesLt b a = false) : a = b := by
  induction a generalizing b with
  | nil =>
    cases b with
    | nil => rfl
    | cons y u => simp [bytesLt] at h1
  | cons x t ih =>
    cases b with
    | nil => simp [bytesLt] at h2
    | cons y u =>
      simp only [bytesLt] at h1 h2
      split_ifs at h1 h2 <;> try omega
      have : x = y := by omega
      subst this
      rw [ih h1 h2]

/-! ## Store lemmas (sorted association list behaviour of `BTreeMap`) -/

theorem storeKeys_cons (e : List Nat × OpV) (t : Store) :
    storeKeys (e :: t) = e.1 :: storeKeys t := rfl

theorem storeGet_of_lt_all {k : List Nat} {s : Store}
    (h : ∀ k0 ∈ storeKeys s, bytesLt k k0 = true) : storeGet k s = none := by
  induction s with
  | nil => rfl
  | cons e t ih =>
    have hne : k ≠ e.1 := bytesLt_ne (h e.1 (List.mem_cons_self _ _))
    obtain ⟨k', op'⟩ := e
    simp only [storeGet, if_neg hne]
    exact ih (fun k0 hk0 => h k0 (List.mem_cons_of_mem _ hk0))

theorem storeInsert_of_lt_all {k : List Nat} {op : OpV} {s : Store}
    (h : ∀ k0 ∈ storeKeys s, bytesLt k k0 = true) :
    storeInsert k op s = (k, op) :: s := by
  cases s with
  | nil => rfl
  | cons e t =>
    have hlt : bytesLt k e.1 = true := h e.1 (List.mem_cons_self _ _)
    obtain ⟨k', op'⟩ := e
    simp [storeInsert, hlt]

theorem storeKeys_insert_subset {k k0 : List Nat} {op : OpV} {s : Store}
    (h : k0 ∈ storeKeys (storeInsert k op s)) : k0 = k ∨ k0 ∈ storeKeys s := by
  induction s with
  | nil =>
    rcases List.mem_cons.mp h with h | h
    · exact Or.inl h
    · cases h
  | cons e t ih =>
    obtain ⟨k', op'⟩ := e
    simp only [storeInsert] at h
    split_ifs at h with h1 h2
    · rcases List.mem_cons.mp h with h | h
      · exact Or.inl h
      · exact Or.inr h
    · rcases List.mem_cons.mp h with h | h
      · exact Or.inl h
      · exact Or.inr (List.mem_cons_of_mem _ h)
    · rcases List.mem_cons.mp h with h | h
      · exact Or.inr (h ▸ List.mem_cons_self _ _)
      · rcases ih h with h | h
        · exact Or.inl h
        · exact Or.inr (List.mem_cons_of_mem _ h)

theorem storeSorted_insert {k : List Nat} {op : OpV} {s : Store}
    (hs : storeSorted s) : storeSorted (storeInsert k op s) := by
  induction s with
  | nil => simp [storeInsert, storeSorted, storeKeys]
  | cons e t ih =>
    obtain ⟨k', op'⟩ := e
    simp only [storeSorted, storeKeys, List.map_cons, List.pairwise_cons] at hs
    obtain ⟨hk', ht⟩ := hs
    simp only [storeInsert]
    split_ifs with h1 h2
    · simp only [storeSorted, storeKeys, List.map_cons, List.pairwise_cons]
      refine ⟨?_, ?_, ht⟩
      · intro b hb
        rcases List.mem_cons.mp hb with hb | hb
        · exact hb ▸ h1
        · exact bytesLt_trans h1 (hk' b hb)
      · exact hk'
    · subst h2
      simp only [storeSorted, storeKeys, List.map_cons, List.pairwise_cons]
      exact ⟨hk', ht⟩
    · simp only [storeSorted, storeKeys, List.map_cons, List.pairwise_cons]
      constructor
      · intro b hb
        rcases storeKeys_insert_subset hb with hbk | hbk
        · subst hbk
          cases hlt : bytesLt k' b with
          | true => rfl
          | false => exact absurd (bytesLt_total (not_true_eq_false h1) hlt) h2
        · exact hk' b hbk
      · exact ih ht

theorem storeGet_insert_self (k : List Nat) (op : OpV) (s : Store) :
    storeGet k (storeInsert k op s) = some op := by
  induction s with
  | nil => simp [storeInsert, storeGet]
  | cons e t ih =>
    obtain ⟨k', op'⟩ := e
    simp only [storeInsert]
    split_ifs with h1 h2
    · simp [storeGet]
    · simp [storeGet]
    · simp only [storeGet, if_neg h2]
      exact ih

theorem storeSizeSum_insert {k : List Nat} (op : OpV) {s : Store}
    (hs : storeSorted s) :
    storeSizeSum (storeInsert k op s) =
      storeSizeSum s + ((k.length : Int) + (OpV.sizeBytes op : Int)) -
        (match storeGet k s with
         | none => 0
         | some op0 => (k.length : Int) + (OpV.sizeBytes op0 : Int)) := by
  induction s with
  | nil =>
    simp only [storeInsert, storeGet, storeSizeSum]
    ring
  | cons e t ih =>
    obtain ⟨k', op'⟩ := e
    simp only [storeSorted, storeKeys, List.map_cons, List.pairwise_cons] at hs
    obtain ⟨hk', ht⟩ := hs
    simp only [storeInsert]
    split_ifs with h1 h2
    · have hnone : storeGet k ((k', op') :: t) = none := by
        have hne : k ≠ k' := bytesLt_ne h1
        simp only [storeGet, if_neg hne]
        exact storeGet_of_lt_all (fun k0 hk0 => bytesLt_trans h1 (hk' k0 hk0))
      rw [hnone]
      simp only [storeSizeSum]
      ring
    · subst h2
      have hsome : storeGet k ((k, op') :: t) = some op' := by simp [storeGet]
      rw [hsome]
      simp only [storeSizeSum]
      ring
    · have hne : k ≠ k' := h2
      simp only [storeGet, if_neg hne, storeSizeSum, ih ht]
      cases hget : storeGet k t <;> ring

/-! ## MemTable invariant lemmas and the C4/C5/C10 theorems -/

theorem storeGet_insert_ne {k k' : List Nat} (op : OpV) (s : Store)
    (h : k' ≠ k) : storeGet k' (storeInsert k op s) = storeGet k' s := by
  induction s with
  | nil => simp [storeInsert, storeGet, h]
  | cons e t ih =>
    obtain ⟨k0, op0⟩ := e
    simp only [storeInsert]
    split_ifs with h1 h2
    · simp [storeGet, h]
    · subst h2
      simp [storeGet, h]
    · by_cases hk0 : k' = k0
      · simp [storeGet, hk0]
      · simp only [storeGet, if_neg hk0]
        exact ih

theorem mtInv_set (m : MemTable) (w k v : List Nat) (h : mtInv m) :
    mtInv (mtSetOk m w k v).1 := by
  obtain ⟨hs, hz⟩ := h
  refine ⟨storeSorted_insert hs, ?_⟩
  simp only [mtSetOk]
  rw [storeSizeSum_insert _ hs, hz]
  cases hget : storeGet k m.store with
  | none => simp [hget, OpV.sizeBytes]
  | some op0 =>
    cases op0 <;> simp [hget, OpV.sizeBytes] <;> push_cast <;> ring

theorem mtInv_delete (m : MemTable) (w k : List Nat) (h : mtInv m) :
    mtInv (mtDeleteOk m w k).1 := by
  obtain ⟨hs, hz⟩ := h
  refine ⟨storeSorted_insert hs, ?_⟩
  simp only [mtDeleteOk]
  rw [storeSizeSum_insert _ hs, hz]
  cases hget : storeGet k m.store with
  | none => simp [hget, OpV.sizeBytes]
  | some op0 =>
    cases op0 <;> simp [hget, OpV.sizeBytes] <;> push_cast <;> ring

theorem mtInv_clear (m : MemTable) (w : List Nat) : mtInv (mtClear m w).1 := by
  exact ⟨List.Pairwise.nil, rfl⟩

theorem mtInv_applyMt (mw : MemTable × List Nat) (op : MtOp) (h : mtInv mw.1) :
    mtInv (applyMt mw op).1 := by
  cases op with
  | set k v => exact mtInv_set mw.1 mw.2 k v h
  | del k => exact mtInv_delete mw.1 mw.2 k h
  | clear => exact mtInv_clear mw.1 mw.2

theorem mtInv_foldl (ops : List MtOp) :
    ∀ mw : MemTable × List Nat, mtInv mw.1 → mtInv (ops.foldl applyMt mw).1 := by
  induction ops with
  | nil => exact fun mw h => h
  | cons op t ih => exact fun mw h => ih _ (mtInv_applyMt mw op h)

theorem mtInv_new : mtInv MemTable.new := ⟨List.Pairwise.nil, rfl⟩

/-- C4 (amended): after any sequence of MemTable `set`, `delete` and
`clear` operations from a fresh MemTable, `size_bytes` equals the sum
over the entries of the store of `len(key) + op.size_bytes()`
(`replay_wal` is excluded: it does not maintain the accumulator, see the
counterexample). -/
theorem c4_size_accounting (ops : List MtOp) :
    (runMt ops).1.sizeBytes = storeSizeSum (runMt ops).1.store :=
  (mtInv_foldl ops (MemTable.new, []) mtInv_new).2

/-- C4 counterexample: replaying a WAL holding the single record
`INSERT a→b` into a fresh MemTable gives a store whose one entry weighs
2 bytes while `size_bytes` stays 0, so the claimed invariant fails after
the MemTable operation `replay_wal`. -/
theorem c4_replay_size_counterexample :
    MemTable.replayWal MemTable.new (insertLogEntry [97] [98]) = some c4M ∧
    c4M.sizeBytes ≠ storeSizeSum c4M.store := by
  constructor
  · decide
  · decide

/-- C5 counterexample: when the WAL append fails, `MemTable::set` and
`MemTable::delete` panic (`.expect`) — the outcome is `panicked`, and no
error value is returned to the caller, contradicting the claim that the
failure propagates as a returned error. -/
theorem c5_wal_failure_counterexample :
    MemTable.setO MemTable.new [] [97] [120] false = .panicked (MemTable.new, []) ∧
    (¬ ∃ e, MemTable.setO MemTable.new [] [97] [120] false = .errReturn e) ∧
    MemTable.deleteO MemTable.new [] [97] false = .panicked (MemTable.new, []) ∧
    (¬ ∃ e, MemTable.deleteO MemTable.new [] [97] false = .errReturn e) := by
  refine ⟨rfl, ?_, rfl, ?_⟩
  · rintro ⟨e, h⟩
    simp [MemTable.setO] at h
  · rintro ⟨e, h⟩
    simp [MemTable.deleteO] at h

/-- C5 (amended): if the WAL append at the start of `MemTable::set` or
`MemTable::delete` fails, the store and `size_bytes` (and the WAL) are
left exactly as they were, and the failure surfaces as a panic rather
than a returned error. -/
theorem c5_wal_failure_panics (m : MemTable) (w k v : List Nat) :
    MemTable.setO m w k v false = .panicked (m, w) ∧
    MemTable.deleteO m w k false = .panicked (m, w) := ⟨rfl, rfl⟩

theorem runDeletes_size (ks : List (List Nat)) :
    ∀ m w, storeSorted m.store → (∀ k ∈ ks, storeGet k m.store = none) →
    ks.Nodup →
    (ks.foldl (fun mw k => mtDeleteOk mw.1 mw.2 k) (m, w)).1.sizeBytes
      = m.sizeBytes + ((ks.map List.length).sum : Int) := by
  induction ks with
  | nil =>
    intro m w _ _ _
    simp
  | cons k0 t ih =>
    intro m w hs habs hnd
    simp only [List.foldl_cons]
    have h0 : storeGet k0 m.store = none := habs k0 (List.mem_cons_self _ _)
    have hs' : storeSorted (mtDeleteOk m w k0).1.store := storeSorted_insert hs
    have habs' : ∀ k ∈ t, storeGet k (mtDeleteOk m w k0).1.store = none := by
      intro k hk
      have hne : k ≠ k0 := by
        intro he
        subst he
        exact (List.nodup_cons.mp hnd).1 hk
      show storeGet k (storeInsert k0 .delete m.store) = none
      rw [storeGet_insert_ne _ _ hne]
      exact habs k (List.mem_cons_of_mem _ hk)
    rw [ih (mtDeleteOk m w k0).1 (mtDeleteOk m w k0).2 hs' habs' (List.nodup_cons.mp hnd).2]
    have step : (mtDeleteOk m w k0).1.sizeBytes = m.sizeBytes + (k0.length : Int) := by
      simp [mtDeleteOk, h0]
    rw [step]
    push_cast [List.map_cons, List.sum_cons]
    ring

/-- C10: `MemTable::delete` on an absent key still appends the `DELETE`
record to the WAL, inserts a tombstone entry and grows `size_bytes` by
`len(key)`; deleting enough distinct absent keys alone makes `is_full`
true, and a delete that fills the MemTable makes `Database::delete`
flush (one more SSTable, MemTable emptied). -/
theorem c10_delete_absent_key :
    (∀ m w k, storeGet k m.store = none →
      (mtDeleteOk m w k).1.store = storeInsert k .delete m.store ∧
      (mtDeleteOk m w k).1.sizeBytes = m.sizeBytes + (k.length : Int) ∧
      (mtDeleteOk m w k).2 = w ++ deleteLogEntry k) ∧
    (∀ ks : List (List Nat), ks.Nodup →
      (runDeletes ks).1.sizeBytes = ((ks.map List.length).sum : Int) ∧
      (1024 ≤ (ks.map List.length).sum → (runDeletes ks).1.isFull = true)) ∧
    (∀ e k, (mtDeleteOk e.mem e.wal k).1.isFull = true → e.ssts.length < 9 →
      (dbDelete e k).mem.store = [] ∧
      (dbDelete e k).ssts.length = e.ssts.length + 1) := by
  refine ⟨?_, ?_, ?_⟩
  · intro m w k h
    refine ⟨rfl, ?_, rfl⟩
    simp [mtDeleteOk, h]
  · intro ks hnd
    have hsz := runDeletes_size ks MemTable.new []
      List.Pairwise.nil (fun k _ => rfl) hnd
    have hsz' : (runDeletes ks).1.sizeBytes = ((ks.map List.length).sum : Int) := by
      simpa [MemTable.new] using hsz
    refine ⟨hsz', fun hge => ?_⟩
    simp only [MemTable.isFull, hsz', flushThresholdBytes, decide_eq_true_eq]
    exact_mod_cast hge
  · intro e k hfull hlen
    simp only [dbDelete, hfull, if_true]
    have hnc : ¬ compactionThreshold ≤ (dbFlush { e with
        mem := (mtDeleteOk e.mem e.wal k).1,
        wal := (mtDeleteOk e.mem e.wal k).2 }).ssts.length := by
      simp only [dbFlush, compactionThreshold, List.length_append, List.length_cons,
        List.length_nil]
      omega
    simp only [if_neg hnc]
    constructor
    · rfl
    · simp [dbFlush]

set_option maxRecDepth 40000 in
/-- C10 witness: the delete effects at a fresh MemTable, fullness from
deleting the 128 distinct absent `c10Keys`, and the flush triggered by
the delete that fills `c10E`. -/
theorem c10_delete_absent_key_witness :
    (mtDeleteOk MemTable.new [] [107]).1.sizeBytes
      = MemTable.new.sizeBytes + ((([107] : List Nat).length : Nat) : Int) ∧
    (runDeletes c10Keys).1.isFull = true ∧
    (dbDelete c10E [107]).ssts.length = c10E.ssts.length + 1 := by
  have h := c10_delete_absent_key
  refine ⟨(h.1 MemTable.new [] [107] (by decide)).2.1, ?_, ?_⟩
  · exact (h.2.1 c10Keys (by decide)).2 (by decide)
  · exact (h.2.2 c10E [107] (by decide) (by decide)).2

/-! ## WAL text lemmas and the C3 round-trip -/

theorem splitTab_no_tab {a : List Nat} (h : TAB ∉ a) : splitTab a = [a] := by
  induction a with
  | nil => rfl
  | cons b t ih =>
    have hb : b ≠ TAB := fun he => h (he ▸ List.mem_cons_self _ _)
    have ht : TAB ∉ t := fun hm => h (List.mem_cons_of_mem _ hm)
    simp only [splitTab, if_neg hb, ih ht]

theorem splitTab_append {a : List Nat} (r : List Nat) (h : TAB ∉ a) :
    splitTab (a ++ TAB :: r) = a :: splitTab r := by
  induction a with
  | nil => simp [splitTab]
  | cons b t ih =>
    have hb : b ≠ TAB := fun he => h (he ▸ List.mem_cons_self _ _)
    have ht : TAB ∉ t := fun hm => h (List.mem_cons_of_mem _ hm)
    simp only [List.cons_append, splitTab, if_neg hb, List.append_eq, ih ht]

theorem splitNl_no_nl {a : List Nat} (h : NL ∉ a) : splitNl a = [a] := by
  induction a with
  | nil => rfl
  | cons b t ih =>
    have hb : b ≠ NL := fun he => h (he ▸ List.mem_cons_self _ _)
    have ht : NL ∉ t := fun hm => h (List.mem_cons_of_mem _ hm)
    simp only [splitNl, if_neg hb, ih ht]

theorem splitNl_append {a : List Nat} (r : List Nat) (h : NL ∉ a) :
    splitNl (a ++ NL :: r) = a :: splitNl r := by
  induction a with
  | nil => simp [splitNl]
  | cons b t ih =>
    have hb : b ≠ NL := fun he => h (he ▸ List.mem_cons_self _ _)
    have ht : NL ∉ t := fun hm => h (List.mem_cons_of_mem _ hm)
    simp only [List.cons_append, splitNl, if_neg hb, List.append_eq, ih ht]

theorem splitNl_ne_nil (w : List Nat) : splitNl w ≠ [] := by
  cases w with
  | nil => simp [splitNl]
  | cons b t =>
    simp only [splitNl]
    split_ifs
    · simp
    · cases splitNl t <;> simp

theorem walLines_cons_record {a : List Nat} (w : List Nat) (h : NL ∉ a) :
    walLines (a ++ NL :: w) = stripCr a :: walLines w := by
  rw [walLines, walLines, splitNl_append w h]
  rcases hw : splitNl w with _ | ⟨h', t'⟩
  · exact absurd hw (splitNl_ne_nil w)
  · rw [List.getLast?_cons_cons]
    cases hl : (h' :: t').getLast? with
    | none => exact absurd hl (by simp)
    | some lastEl =>
      cases lastEl with
      | nil => simp
      | cons x xs => simp

theorem replayLine_insert {k v : List Nat} (m : MemTable)
    (hk : TAB ∉ k) (hv : TAB ∉ v) :
    replayLine m (lineOf (.set k v)) =
      some { m with store := storeInsert k (.insert v) m.store } := by
  have htag : TAB ∉ INSERTTAG := by decide
  have h1 : splitTab (lineOf (.set k v)) = INSERTTAG :: k :: [v] := by
    rw [lineOf, splitTab_append _ htag, splitTab_append _ hk, splitTab_no_tab hv]
  rw [replayLine, h1]
  simp

theorem replayLine_delete {k : List Nat} (m : MemTable) (hk : TAB ∉ k) :
    replayLine m (lineOf (.del k)) =
      some { m with store := storeRemove k m.store } := by
  have htag : TAB ∉ DELETETAG := by decide
  have h1 : splitTab (lineOf (.del k)) = DELETETAG :: [k] := by
    rw [lineOf, splitTab_append _ htag, splitTab_no_tab hk]
  rw [replayLine, h1]
  simp [INSERTTAG, DELETETAG]

theorem nl_not_mem_lineOf {op : DbOp} (h : opTabNlFree op) : NL ∉ lineOf op := by
  cases op with
  | set k v =>
    obtain ⟨-, hk, -, hv⟩ := h
    intro hm
    rw [lineOf] at hm
    rcases List.mem_append.mp hm with hm | hm
    · exact absurd hm (by decide)
    · rcases List.mem_cons.mp hm with hm | hm
      · exact absurd hm (by decide)
      · rcases List.mem_append.mp hm with hm | hm
        · exact hk hm
        · rcases List.mem_cons.mp hm with hm | hm
          · exact absurd hm (by decide)
          · exact hv hm
  | del k =>
    obtain ⟨-, hk⟩ := h
    intro hm
    rw [lineOf] at hm
    rcases List.mem_append.mp hm with hm | hm
    · exact absurd hm (by decide)
    · rcases List.mem_cons.mp hm with hm | hm
      · exact absurd hm (by decide)
      · exact hk hm

theorem recordOf_eq_line_nl (op : DbOp) :
    recordOf op = lineOf op ++ [NL] := by
  cases op with
  | set k v => simp [recordOf, lineOf, insertLogEntry]
  | del k => simp [recordOf, lineOf, deleteLogEntry]

theorem walLines_walRecords (ops : List DbOp)
    (hfree : ∀ op ∈ ops, opTabNlFree op) :
    walLines (walRecords ops) = ops.map (fun op => stripCr (lineOf op)) := by
  induction ops with
  | nil => rfl
  | cons op t ih =>
    have hrec : walRecords (op :: t) = lineOf op ++ NL :: walRecords t := by
      show recordOf op ++ walRecords t = _
      rw [recordOf_eq_line_nl op, List.append_assoc]
      rfl
    rw [hrec, walLines_cons_record _ (nl_not_mem_lineOf (hfree op (List.mem_cons_self _ _))),
      ih (fun o ho => hfree o (List.mem_cons_of_mem _ ho)), List.map_cons]

theorem applyMem_wal (ops : List DbOp) :
    ∀ m (w : List Nat), (applyMem (m, w) ops).2 = w ++ walRecords ops := by
  induction ops with
  | nil =>
    intro m w
    simp [applyMem, walRecords]
  | cons op t ih =>
    intro m w
    cases op with
    | set k v =>
      show (applyMem (mtSetOk m w k v) t).2 = _
      rw [show mtSetOk m w k v = ((mtSetOk m w k v).1, w ++ insertLogEntry k v) from rfl]
      rw [ih _ _, List.append_assoc]
      rfl
    | del k =>
      show (applyMem (mtDeleteOk m w k) t).2 = _
      rw [show mtDeleteOk m w k = ((mtDeleteOk m w k).1, w ++ deleteLogEntry k) from rfl]
      rw [ih _ _, List.append_assoc]
      rfl

theorem storeRemove_of_not_mem {k : List Nat} {s : Store}
    (h : k ∉ storeKeys s) : storeRemove k s = s := by
  induction s with
  | nil => rfl
  | cons e t ih =>
    obtain ⟨k', op'⟩ := e
    have hne : k ≠ k' := fun he => h (he ▸ List.mem_cons_self _ _)
    simp only [storeRemove, if_neg hne]
    rw [ih (fun hm => h (List.mem_cons_of_mem _ hm))]

theorem dropDeletes_keys_subset {k0 : List Nat} {s : Store}
    (h : k0 ∈ storeKeys (dropDeletes s)) : k0 ∈ storeKeys s := by
  induction s with
  | nil => exact h
  | cons e t ih =>
    obtain ⟨k', op'⟩ := e
    cases op' with
    | insert v =>
      rcases List.mem_cons.mp h with h | h
      · exact h ▸ List.mem_cons_self _ _
      · exact List.mem_cons_of_mem _ (ih h)
    | delete => exact List.mem_cons_of_mem _ (ih h)

theorem dropDeletes_insert {k v : List Nat} {s : Store} (hs : storeSorted s) :
    dropDeletes (storeInsert k (.insert v) s) =
      storeInsert k (.insert v) (dropDeletes s) := by
  induction s with
  | nil => rfl
  | cons e t ih =>
    obtain ⟨k', op'⟩ := e
    simp only [storeSorted, storeKeys, List.map_cons, List.pairwise_cons] at hs
    obtain ⟨hk', ht⟩ := hs
    simp only [storeInsert]
    split_ifs with h1 h2
    · have hall : ∀ k0 ∈ storeKeys (dropDeletes ((k', op') :: t)), bytesLt k k0 = true := by
        intro k0 hk0
        rcases List.mem_cons.mp (dropDeletes_keys_subset hk0) with hk0 | hk0
        · exact hk0 ▸ h1
        · exact bytesLt_trans h1 (hk' k0 hk0)
      rw [storeInsert_of_lt_all hall]
      cases op' <;> rfl
    · subst h2
      cases op' with
      | insert v0 =>
        show (k, OpV.insert v) :: dropDeletes t =
          storeInsert k (.insert v) ((k, .insert v0) :: dropDeletes t)
        simp [storeInsert, bytesLt_irrefl]
      | delete =>
        show (k, OpV.insert v) :: dropDeletes t = storeInsert k (.insert v) (dropDeletes t)
        rw [storeInsert_of_lt_all]
        intro k0 hk0
        exact hk' k0 (dropDeletes_keys_subset hk0)
    · cases op' with
      | insert v0 =>
        show (k', OpV.insert v0) :: dropDeletes (storeInsert k (.insert v) t) = _
        rw [ih ht]
        show _ = storeInsert k (.insert v) ((k', .insert v0) :: dropDeletes t)
        simp [storeInsert, h1, h2]
      | delete =>
        show dropDeletes (storeInsert k (.insert v) t) = _
        rw [ih ht]
        rfl

theorem dropDeletes_delete {k : List Nat} {s : Store} (hs : storeSorted s) :
    dropDeletes (storeInsert k .delete s) = storeRemove k (dropDeletes s) := by
  induction s with
  | nil => rfl
  | cons e t ih =>
    obtain ⟨k', op'⟩ := e
    simp only [storeSorted, storeKeys, List.map_cons, List.pairwise_cons] at hs
    obtain ⟨hk', ht⟩ := hs
    simp only [storeInsert]
    split_ifs with h1 h2
    · have hnm : k ∉ storeKeys (dropDeletes ((k', op') :: t)) := by
        intro hk0
        rcases List.mem_cons.mp (dropDeletes_keys_subset hk0) with hk0 | hk0
        · exact bytesLt_ne h1 hk0
        · exact bytesLt_ne (bytesLt_trans h1 (hk' k hk0)) rfl
      show dropDeletes ((k', op') :: t) = _
      rw [storeRemove_of_not_mem hnm]
    · subst h2
      cases op' with
      | insert v0 =>
        show dropDeletes t = storeRemove k ((k, .insert v0) :: dropDeletes t)
        simp [storeRemove]
      | delete =>
        show dropDeletes t = storeRemove k (dropDeletes t)
        rw [storeRemove_of_not_mem]
        intro hk0
        exact bytesLt_ne (hk' k (dropDeletes_keys_subset hk0)) rfl
    · cases op' with
      | insert v0 =>
        show (k', OpV.insert v0) :: dropDeletes (storeInsert k .delete t) = _
        rw [ih ht]
        show _ = storeRemove k ((k', .insert v0) :: dropDeletes t)
        simp [storeRemove, h2]
      | delete =>
        show dropDeletes (storeInsert k .delete t) = _
        rw [ih ht]
        rfl

theorem replayFold_eq (ops : List DbOp) (hfree : ∀ op ∈ ops, opTabNlFree op) :
    ∀ (md : MemTable) (w : List Nat) (mr : MemTable), storeSorted md.store →
      mr.store = dropDeletes md.store →
      (ops.map lineOf).foldlM replayLine mr =
        some { store := dropDeletes (applyMem (md, w) ops).1.store
               sizeBytes := mr.sizeBytes } := by
  induction ops with
  | nil =>
    intro md w mr hs hr
    simp only [List.map_nil, List.foldlM_nil, applyMem, List.foldl_nil]
    cases mr
    simp_all
  | cons op t ih =>
    intro md w mr hs hr
    have hof := hfree op (List.mem_cons_self _ _)
    have hft := fun o ho => hfree o (List.mem_cons_of_mem _ ho)
    cases op with
    | set k v =>
      obtain ⟨hk, -, hv, -⟩ := hof
      rw [List.map_cons, List.foldlM_cons, replayLine_insert mr hk hv]
      show (t.map lineOf).foldlM replayLine _ = _
      have hstep : applyMem (md, w) (.set k v :: t) = applyMem (mtSetOk md w k v) t := rfl
      rw [hstep]
      rw [show mtSetOk md w k v = ((mtSetOk md w k v).1, (mtSetOk md w k v).2) from rfl]
      exact ih hft _ _ _ (storeSorted_insert hs) (by rw [show (mtSetOk md w k v).1.store = storeInsert k (.insert v) md.store from rfl, dropDeletes_insert hs, hr])
    | del k =>
      obtain ⟨hk, -⟩ := hof
      rw [List.map_cons, List.foldlM_cons, replayLine_delete mr hk]
      show (t.map lineOf).foldlM replayLine _ = _
      have hstep : applyMem (md, w) (.del k :: t) = applyMem (mtDeleteOk md w k) t := rfl
      rw [hstep]
      rw [show mtDeleteOk md w k = ((mtDeleteOk md w k).1, (mtDeleteOk md w k).2) from rfl]
      exact ih hft _ _ _ (storeSorted_insert hs) (by rw [show (mtDeleteOk md w k).1.store = storeInsert k .delete md.store from rfl, dropDeletes_delete hs, hr])

theorem stripCr_of_getLast_ne {l : List Nat} (h : l.getLast? ≠ some CR) :
    stripCr l = l := by
  rw [stripCr, if_neg h]

theorem lineOf_getLast_ne_cr {op : DbOp} (h : opNoCrEnd op) :
    (lineOf op).getLast? ≠ some CR := by
  cases op with
  | set k v =>
    cases v with
    | nil =>
      have hline : lineOf (.set k []) = (INSERTTAG ++ TAB :: k) ++ [TAB] := by
        simp [lineOf]
      rw [hline, List.getLast?_concat]
      simp [TAB, CR]
    | cons x xs =>
      have hline : lineOf (.set k (x :: xs)) =
          (INSERTTAG ++ TAB :: (k ++ [TAB])) ++ (x :: xs) := by
        simp [lineOf]
      rw [hline, List.getLast?_append_of_ne_nil _ (by simp)]
      exact h
  | del k =>
    cases k with
    | nil =>
      have hline : lineOf (.del []) = DELETETAG ++ [TAB] := by simp [lineOf]
      rw [hline, List.getLast?_concat]
      simp [TAB, CR]
    | cons x xs =>
      have hline : lineOf (.del (x :: xs)) = (DELETETAG ++ [TAB]) ++ (x :: xs) := by
        simp [lineOf]
      rw [hline, List.getLast?_append_of_ne_nil _ (by simp)]
      exact h

/-- C3 counterexample: the sequence `set a→"x\r"` is within the claim's
scope (no TAB or NL anywhere), yet replay yields `a→"x"`: the WAL line
ends `\r\n`, and `lines()` (wal.rs:46-50) strips the CRLF, so the
replayed map differs from the direct map on a key whose last operation
is an Insert. -/
theorem c3_crlf_counterexample :
    (∀ op ∈ [DbOp.set [97] [120, 13]], opTabNlFree op) ∧
    MemTable.replayWal MemTable.new
        (applyMem (MemTable.new, []) [DbOp.set [97] [120, 13]]).2 =
      some { store := [([97], .insert [120])], sizeBytes := 0 } ∧
    dropDeletes (applyMem (MemTable.new, []) [DbOp.set [97] [120, 13]]).1.store =
      [([97], .insert [120, 13])] ∧
    ([([97], OpV.insert [120])] : Store) ≠ [([97], OpV.insert [120, 13])] := by
  refine ⟨by decide, by decide, by decide, by decide⟩

/-- C3 (amended): replaying a WAL that recorded a set/delete sequence
(whose keys and values hold no TAB or NL byte, the scope §4.1 assumes,
and whose Insert values and Delete keys do not end in a CR byte — the
CRLF handling of `lines()` would strip it) into a fresh empty MemTable
yields the same key-to-Operation map as applying the sequence directly
to a fresh MemTable, except that keys whose last recorded operation is
a Delete are absent instead of mapped to a tombstone (and `size_bytes`
stays 0, see C4). -/
theorem c3_replay_round_trip (ops : List DbOp)
    (hfree : ∀ op ∈ ops, opTabNlFree op) (hcr : ∀ op ∈ ops, opNoCrEnd op) :
    MemTable.replayWal MemTable.new (applyMem (MemTable.new, []) ops).2 =
      some { store := dropDeletes (applyMem (MemTable.new, []) ops).1.store
             sizeBytes := 0 } := by
  have hw : (applyMem (MemTable.new, []) ops).2 = walRecords ops := by
    rw [applyMem_wal ops MemTable.new []]
    rfl
  rw [MemTable.replayWal, hw, walLines_walRecords ops hfree,
    List.map_congr_left
      (fun op hop => stripCr_of_getLast_ne (lineOf_getLast_ne_cr (hcr op hop)))]
  exact replayFold_eq ops hfree MemTable.new [] MemTable.new List.Pairwise.nil rfl

/-- C3 witness: the round-trip at the concrete sequence
`set a→x; delete a; set b→y`, whose direct map is
`[a→Delete, b→Insert y]` and whose replayed map drops the `a`
tombstone. -/
theorem c3_replay_round_trip_witness :
    MemTable.replayWal MemTable.new (applyMem (MemTable.new, []) c3Ops).2 =
      some { store := dropDeletes (applyMem (MemTable.new, []) c3Ops).1.store
             sizeBytes := 0 } ∧
    (applyMem (MemTable.new, []) c3Ops).1.store =
      [([97], .delete), ([98], .insert [121])] :=
  ⟨c3_replay_round_trip c3Ops (by decide) (by decide), by decide⟩

/-! ## SSTable record encode/decode round-trip (C7, C8, C9) -/

theorem hasLen_iff (l : List α) (n : Nat) : hasLen l n = true ↔ n ≤ l.length := by
  induction n generalizing l with
  | zero => simp [hasLen]
  | succ m ih =>
    cases l with
    | nil => simp [hasLen]
    | cons x t =>
      simp only [hasLen, List.length_cons, ih]
      omega

theorem fromLE4_u32le {n : Nat} (h : n < 4294967296) :
    fromLE4 (n % 256) (n / 256 % 256) (n / 65536 % 256) (n / 16777216 % 256) = n := by
  rw [fromLE4]
  omega

theorem recEnc_length (k : List Nat) (op : OpV) :
    (recEnc k op).length = 8 + k.length + (valBytes op).length := by
  simp [recEnc, u32le, List.length_append]
  omega

theorem readRec_encode (k : List Nat) (op : OpV) (rest : List Nat)
    (hk : k.length < 4294967296) (hv : (valBytes op).length < 4294967296) :
    readRec (recEnc k op ++ rest) =
      .record k (decodeVal (valBytes op)) (8 + k.length + (valBytes op).length) := by
  have hshape : recEnc k op ++ rest =
      k.length % 256 :: (k.length / 256 % 256) :: (k.length / 65536 % 256) ::
      (k.length / 16777216 % 256) :: ((valBytes op).length % 256) ::
      ((valBytes op).length / 256 % 256) :: ((valBytes op).length / 65536 % 256) ::
      ((valBytes op).length / 16777216 % 256) :: (k ++ ((valBytes op) ++ rest)) := by
    simp [recEnc, u32le, List.append_assoc]
  rw [hshape, readRec]
  rw [fromLE4_u32le hk, fromLE4_u32le hv]
  have h1 : hasLen (k ++ (valBytes op ++ rest)) k.length = true := by
    rw [hasLen_iff]
    simp [List.length_append]
  rw [if_pos h1]
  rw [List.take_left, List.drop_left]
  have h2 : hasLen (valBytes op ++ rest) (valBytes op).length = true := by
    rw [hasLen_iff]
    simp [List.length_append]
  rw [if_pos h2]
  rw [List.take_left]

theorem decodeFrom_encode (pairs : List (List Nat × OpV))
    (hb : ∀ p ∈ pairs, p.1.length < 4294967296 ∧ (valBytes p.2).length < 4294967296) :
    ∀ (fuel : Nat) (file pre : List Nat), pairs.length < fuel →
      file = pre ++ (batchWrite pairs).1 →
      decodeFrom file fuel pre.length =
        some (pairs.map (fun p => (p.1, decodeVal (valBytes p.2)))) := by
  induction pairs with
  | nil =>
    intro fuel file pre hf hfile
    cases fuel with
    | zero => omega
    | succ f =>
      have hnilfile : file.drop pre.length = [] := by
        have h0 : (batchWrite ([] : List (List Nat × OpV))).1 = [] := rfl
        rw [hfile, h0, List.append_nil, List.drop_length]
      simp only [decodeFrom]
      rw [hnilfile]
      rfl
  | cons p t ih =>
    intro fuel file pre hf hfile
    obtain ⟨k, op⟩ := p
    cases fuel with
    | zero => omega
    | succ f =>
      have hdrop : file.drop pre.length = recEnc k op ++ (batchWrite t).1 := by
        rw [hfile]
        have : (batchWrite ((k, op) :: t)).1 = recEnc k op ++ (batchWrite t).1 := rfl
        rw [this, List.drop_left]
      have hkb := hb (k, op) (List.mem_cons_self _ _)
      simp only [decodeFrom]
      rw [hdrop, readRec_encode k op _ hkb.1 hkb.2]
      have hrec := ih (fun q hq => hb q (List.mem_cons_of_mem _ hq)) f file
        (pre ++ recEnc k op) (by simpa using hf)
        (by rw [hfile]
            show pre ++ (recEnc k op ++ (batchWrite t).1) = _
            rw [List.append_assoc])
      rw [List.length_append, recEnc_length] at hrec
      simp only [hrec]
      rfl

theorem lenTR_eq (l : List α) : ∀ acc, lenTR acc l = acc + l.length := by
  induction l with
  | nil => intro acc; simp [lenTR]
  | cons x t ih =>
    intro acc
    rw [lenTR, ih, List.length_cons]
    omega

theorem batchWrite_length_ge (pairs : List (List Nat × OpV)) :
    pairs.length ≤ (batchWrite pairs).1.length := by
  induction pairs with
  | nil => simp [batchWrite]
  | cons p t ih =>
    obtain ⟨k, op⟩ := p
    show ((recEnc k op ++ (batchWrite t).1).length) ≥ _
    rw [List.length_append, recEnc_length]
    simp only [List.length_cons]
    omega

theorem batchWrite_length (pairs : List (List Nat × OpV)) :
    (batchWrite pairs).1.length = recsLen pairs := by
  induction pairs with
  | nil => rfl
  | cons p t ih =>
    obtain ⟨k, op⟩ := p
    show (recEnc k op ++ (batchWrite t).1).length = _
    rw [List.length_append, recEnc_length, ih]
    show _ = 8 + k.length + (valBytes op).length + recsLen t
    omega

theorem readAllOps_encode (pairs : List (List Nat × OpV))
    (hb : ∀ p ∈ pairs, p.1.length < 4294967296 ∧ (valBytes p.2).length < 4294967296) :
    readAllOps (batchWrite pairs).1 =
      some (pairs.map (fun p => (p.1, decodeVal (valBytes p.2)))) := by
  rw [readAllOps, lenTR_eq]
  have := batchWrite_length_ge pairs
  exact decodeFrom_encode pairs hb _ _ [] (by omega) rfl

/-- C8: `SSTable::write(key, operation)` appends exactly the key length
as a 4-byte little-endian u32, the value length as a 4-byte
little-endian u32, the key bytes, then the value bytes (the 9-byte
literal `TOMBSTONE` for a Delete), and reports `8 + lk + lv` bytes
written, the length of what it appended (stated for records within the
u32 length domain, the only ones the format supports). -/
theorem c8_write_record_format (k : List Nat) (op : OpV)
    (hk : k.length < 4294967296) (hv : (valBytes op).length < 4294967296) :
    (recEnc k op).take 4 = u32le k.length ∧
    ((recEnc k op).drop 4).take 4 = u32le (valBytes op).length ∧
    ((recEnc k op).drop 8).take k.length = k ∧
    ((recEnc k op).drop 8).drop k.length = valBytes op ∧
    (op = .delete → valBytes op = TOMBSTONE ∧ TOMBSTONE.length = 9) ∧
    recEncReported k op = 8 + k.length + (valBytes op).length ∧
    recEncReported k op = (recEnc k op).length := by
  have hshape : recEnc k op =
      k.length % 256 :: (k.length / 256 % 256) :: (k.length / 65536 % 256) ::
      (k.length / 16777216 % 256) :: ((valBytes op).length % 256) ::
      ((valBytes op).length / 256 % 256) :: ((valBytes op).length / 65536 % 256) ::
      ((valBytes op).length / 16777216 % 256) :: (k ++ valBytes op) := by
    simp [recEnc, u32le, List.append_assoc]
  refine ⟨?_, ?_, ?_, ?_, ?_, ?_, ?_⟩
  · rw [hshape]
    rfl
  · rw [hshape]
    rfl
  · rw [hshape]
    show (k ++ valBytes op).take k.length = k
    exact List.take_left k (valBytes op)
  · rw [hshape]
    show (k ++ valBytes op).drop k.length = valBytes op
    exact List.drop_left k (valBytes op)
  · intro ho
    subst ho
    exact ⟨rfl, rfl⟩
  · rw [recEncReported, Nat.mod_eq_of_lt hk, Nat.mod_eq_of_lt hv]
  · rw [recEncReported, Nat.mod_eq_of_lt hk, Nat.mod_eq_of_lt hv, recEnc_length]

/-- C8 witness: the record format equalities at the concrete delete
record for key `k` (`[107]`). -/
theorem c8_write_record_format_witness :
    (recEnc [107] .delete).take 4 = u32le ([107] : List Nat).length ∧
    ((recEnc [107] .delete).drop 4).take 4 = u32le (valBytes .delete).length ∧
    ((recEnc [107] .delete).drop 8).take ([107] : List Nat).length = [107] ∧
    ((recEnc [107] .delete).drop 8).drop ([107] : List Nat).length = valBytes .delete ∧
    (OpV.delete = .delete → valBytes .delete = TOMBSTONE ∧ TOMBSTONE.length = 9) ∧
    recEncReported [107] .delete = 8 + ([107] : List Nat).length + (valBytes .delete).length ∧
    recEncReported [107] .delete = (recEnc [107] .delete).length :=
  c8_write_record_format [107] .delete (by decide) (by decide)

/-- C7: flushing a MemTable (sorted store, record lengths within the u32
domain) produces an SSTable whose sequential iteration from offset 0
yields exactly the store's keys: strictly ascending in byte order, with
no duplicates. -/
theorem c7_flushed_sstable_ascending (e : Engine) (hs : storeSorted e.mem.store)
    (hb : ∀ p ∈ e.mem.store, p.1.length < 4294967296 ∧ (valBytes p.2).length < 4294967296) :
    ∃ recs, readAllOps ((dbFlush e).ssts.getLastD (sstFromFile [])).file = some recs ∧
      recs.map Prod.fst = storeKeys e.mem.store ∧
      List.Pairwise (fun a b => bytesLt a b = true) (recs.map Prod.fst) ∧
      (recs.map Prod.fst).Nodup := by
  have htab : ((dbFlush e).ssts.getLastD (sstFromFile [])).file = (batchWrite e.mem.store).1 := by
    show ((e.ssts ++ [_]).getLastD _).file = _
    rw [List.getLastD_concat]
  refine ⟨e.mem.store.map (fun p => (p.1, decodeVal (valBytes p.2))), ?_, ?_, ?_, ?_⟩
  · rw [htab]
    exact readAllOps_encode e.mem.store hb
  · rw [List.map_map]
    rfl
  · rw [List.map_map]
    exact hs
  · rw [List.map_map]
    exact List.Pairwise.imp (fun hab => bytesLt_ne hab) hs

/-- C7 witness: the flushed table of the two-entry engine `c7E` has keys
`[[97], [98]]`, ascending and duplicate-free. -/
theorem c7_flushed_sstable_ascending_witness :
    ∃ recs, readAllOps ((dbFlush c7E).ssts.getLastD (sstFromFile [])).file = some recs ∧
      recs.map Prod.fst = storeKeys c7E.mem.store ∧
      List.Pairwise (fun a b => bytesLt a b = true) (recs.map Prod.fst) ∧
      (recs.map Prod.fst).Nodup :=
  c7_flushed_sstable_ascending c7E (by decide) (by decide)

/-- C9: for any key shorter than 1015 bytes (so the set does not fill
the MemTable), `set(k, TOMBSTONE)` followed by a flush makes `get(k)`
return not-found — the stored value equal to the 9-byte literal decodes
as a Delete when read back from the SSTable — while before the flush the
same `get` returns the value `TOMBSTONE` from the MemTable. -/
theorem c9_tombstone_sentinel (k : List Nat) (h : k.length < 1015) :
    dbGet (dbSet Engine.new k TOMBSTONE) k = .found TOMBSTONE ∧
    dbGet (dbFlush (dbSet Engine.new k TOMBSTONE)) k = .notFound := by
  have hsize : (mtSetOk Engine.new.mem Engine.new.wal k TOMBSTONE).1.sizeBytes
      = (k.length : Int) + 9 := by
    simp [mtSetOk, Engine.new, MemTable.new, storeGet, TOMBSTONE]
  have hfull : (mtSetOk Engine.new.mem Engine.new.wal k TOMBSTONE).1.isFull = false := by
    rw [MemTable.isFull, hsize]
    apply decide_eq_false
    intro hle
    rw [flushThresholdBytes] at hle
    omega
  have he1 : dbSet Engine.new k TOMBSTONE =
      { mem := (mtSetOk Engine.new.mem Engine.new.wal k TOMBSTONE).1
        wal := (mtSetOk Engine.new.mem Engine.new.wal k TOMBSTONE).2
        ssts := [] } := by
    simp only [dbSet, hfull]
    rfl
  have hget1 : MemTable.get (mtSetOk Engine.new.mem Engine.new.wal k TOMBSTONE).1 k =
      some (.insert TOMBSTONE) := storeGet_insert_self k (.insert TOMBSTONE) []
  constructor
  · rw [he1]
    simp only [dbGet, hget1]
  · rw [he1]
    have hk32 : k.length < 4294967296 := by omega
    have hfile : (batchWrite [(k, OpV.insert TOMBSTONE)]).1 =
        recEnc k (.insert TOMBSTONE) ++ [] := rfl
    have hfind : SST.findKey
        (SST.mk (batchWrite [(k, OpV.insert TOMBSTONE)]).1
          (recsLen [(k, OpV.insert TOMBSTONE)])
          (strideIndex [(k, OpV.insert TOMBSTONE)]
            ((batchWrite [(k, OpV.insert TOMBSTONE)]).2)))
        k = .found .delete := by
      have hidx : strideIndex [(k, OpV.insert TOMBSTONE)]
          ((batchWrite [(k, OpV.insert TOMBSTONE)]).2) = [(k, 0)] := rfl
      simp only [SST.findKey, hidx]
      rw [show ([((k : List Nat), (0 : Nat))].map Prod.fst) = [k] from rfl]
      rw [if_neg (by simp)]
      simp only [List.length_singleton, Nat.sub_self]
      rw [show bsLoop [k] k 1 0 0 = 0 from rfl]
      rw [show ([k] : List (List Nat)).getD 0 [] = k from rfl]
      rw [show idxGet k [(k, 0)] = 0 from by simp [idxGet]]
      rw [show recsLen [(k, OpV.insert TOMBSTONE)] + 1 = 8 + k.length + 9 + 0 + 1 from rfl]
      rw [findKeyScan]
      rw [List.drop_zero, hfile,
        readRec_encode k (.insert TOMBSTONE) [] hk32 (by decide)]
      simp [decodeVal, valBytes]
    have hflush : dbFlush
        { mem := (mtSetOk Engine.new.mem Engine.new.wal k TOMBSTONE).1
          wal := (mtSetOk Engine.new.mem Engine.new.wal k TOMBSTONE).2
          ssts := ([] : List SST) } =
        { mem := { store := [], sizeBytes := 0 }, wal := []
          ssts := [] ++ [SST.mk (batchWrite [(k, OpV.insert TOMBSTONE)]).1
            (recsLen [(k, OpV.insert TOMBSTONE)])
            (strideIndex [(k, OpV.insert TOMBSTONE)]
              ((batchWrite [(k, OpV.insert TOMBSTONE)]).2))] } := rfl
    rw [hflush]
    simp only [dbGet, MemTable.get, storeGet, List.nil_append, List.reverse_cons,
      List.reverse_nil, getScan, hfind]

/-- C9 witness: the sentinel behaviour at the concrete key `a`. -/
theorem c9_tombstone_sentinel_witness :
    dbGet (dbSet Engine.new [97] TOMBSTONE) [97] = .found TOMBSTONE ∧
    dbGet (dbFlush (dbSet Engine.new [97] TOMBSTONE)) [97] = .notFound :=
  c9_tombstone_sentinel [97] (by decide)

/-! ## Concrete evaluations: C6, C2, C1 -/

/-- C6: `find_key` on a table whose sparse in-memory index is empty
(e.g. any table opened by `from_file`, whose `load_index` loads nothing)
panics — `keys.len() - 1` underflows — instead of scanning from offset 0
and returning the record, which is present and well-formed. -/
theorem c6_find_key_empty_index_panics :
    (sstFromFile c6File).index = [] ∧
    readAllOps c6File = some [([97], .insert [120])] ∧
    (sstFromFile c6File).findKey [97] = .panic := by
  refine ⟨rfl, by decide, rfl⟩

set_option maxRecDepth 100000 in
/-- C2: compacting the two flushed tables of `c2End` (ten shared keys
`c0..c9` plus `d` in the older table and `e` in the newer) yields one
SSTable whose records are `c0..c9` (each with the newer table's value),
then `e`, then `d`: the last two records are out of ascending key order,
because the merge loop never refills a table whose queued batch was
emptied by duplicate draining. -/
theorem c2_compaction_out_of_order :
    c2End.ssts.length = 1 ∧
    readAllOps (c2End.ssts.getD 0 (sstFromFile [])).file = some c2Records ∧
    c2Records.map Prod.fst = ((List.range 10).map c2cK) ++ [[101], [100]] ∧
    ¬ List.Pairwise (fun a b => bytesLt a b = true) (c2Records.map Prod.fst) := by
  refine ⟨by decide, by decide, by decide, by decide⟩

set_option maxRecDepth 1000000 in
set_option maxHeartbeats 4000000 in
/-- C1: after the 49-request trace `c1Trace` (whose flushes and the
final compaction happen exactly as the engine prescribes, and which
ends with an empty MemTable and a single compacted SSTable), the last
operation for key `b` is `Insert c1VNew`, yet `get(b)` returns the
overwritten epoch-0 value `c1VOld`: compaction emitted the old `b`
record before the new one and the sparse index steers `find_key` to the
old record first. -/
theorem c1_get_returns_stale_value_after_compaction :
    lastOpFor c1BK c1Trace = some (.insert c1VNew) ∧
    c1VNew ≠ c1VOld ∧
    c1End.mem.store = [] ∧
    c1End.ssts.length = 1 ∧
    dbGet c1End c1BK = .found c1VOld := by
  refine ⟨by decide, by decide, by decide, by decide, by decide⟩

end Kassantra
